import Mathlib

/-!
Shallow embedding of the `milkpq` crate: a striped concurrent priority queue.

The crate stores `N` shards (`Queue`), each a Rust `std::collections::BinaryHeap`
(a binary max-heap) guarded by a one-bit spinlock (`cas_lock : AtomicBool`).
The public type `MilkPQ` routes operations to shards chosen by a uniform random
index distribution over `[0, N)`.

Modelling decisions, all driven by the source in `src/lib.rs`:

* `BinaryHeap` is modelled observationally as a descending-sorted list of
  elements plus a capacity counter: `push` is ordered insertion, `pop` removes
  the head (the maximum).  Rust's heap pops a maximal element and iterates in
  unspecified order; every claim below compares multisets or sorted output, so
  the sorted-list model is observationally faithful.
* The single-bit lock is a `Bool` field.  A `compare_exchange_weak(false, true, ..)`
  succeeds exactly when the flag is `false` in the sequential (quiescent) model.
* Blocking spin loops (`clear`, `strong_pop`'s inner wait, `clone`, `fmt`)
  terminate only if the flag is free; with no other thread to release it, a held
  flag means divergence, modelled as `Option.none`.
* The thread-local random sampler is made explicit: `push`/`pop` consume a list
  of sampled indices (the oracle of successive samples drawn from the
  distribution); running out of samples models an infinite retry loop.
* `Uniform::new(0, limit)` (rand) panics when `limit = 0`; panics are modelled
  by `Option.none` from the constructor.
* `num_cpus::get()` is environment input, passed as the explicit `ncpu`
  parameter of `new` / `with_capacity`.
-/

/-- Model of Rust `std::collections::BinaryHeap<T>`: the element multiset kept
as a descending-sorted list, plus the reserved capacity. -/
structure BinaryHeap (α : Type) where
  elems : List α
  cap : Nat
deriving Repr, DecidableEq

namespace BinaryHeap

variable {α : Type} [LinearOrder α]

/-- Model of Rust `BinaryHeap::new()`. -/
def new : BinaryHeap α := ⟨[], 0⟩

/-- Model of Rust `BinaryHeap::with_capacity(cap)`. -/
def with_capacity (cap : Nat) : BinaryHeap α := ⟨[], cap⟩

/-- Model of Rust `BinaryHeap::push`: insert the element; capacity grows to at
least the new length (Rust guarantees `capacity ≥ len`; the exact growth policy
is amortized and unobservable to the claims). -/
def push (h : BinaryHeap α) (t : α) : BinaryHeap α :=
  ⟨List.orderedInsert (· ≥ ·) t h.elems, max h.cap (h.elems.length + 1)⟩

/-- Model of Rust `BinaryHeap::pop`: remove and return the maximum element. -/
def pop (h : BinaryHeap α) : Option α × BinaryHeap α :=
  match h with
  | ⟨[], c⟩ => (none, ⟨[], c⟩)
  | ⟨x :: xs, c⟩ => (some x, ⟨xs, c⟩)

/-- Model of Rust `BinaryHeap::clear`: drop all elements, keep capacity. -/
def clear (h : BinaryHeap α) : BinaryHeap α := ⟨[], h.cap⟩

/-- Model of Rust `BinaryHeap::capacity`. -/
def capacity (h : BinaryHeap α) : Nat := h.cap

end BinaryHeap

/-- Model of the private `Queue<T>` shard type: the heap behind an `UnsafeCell`
plus the one-bit spinlock `cas_lock`. -/
structure Queue (α : Type) where
  pq : BinaryHeap α
  cas_lock : Bool
deriving Repr, DecidableEq

namespace Queue

variable {α : Type} [LinearOrder α]

/-- Model of `Queue::new(pq)`: the flag starts free. -/
def new (pq : BinaryHeap α) : Queue α := ⟨pq, false⟩

/-- Model of `Queue::try_push`: one CAS attempt.  If the flag is held the CAS
fails and the element is handed back (`Err(t)`) with the shard untouched;
otherwise the element is pushed and the flag released. -/
def try_push (q : Queue α) (t : α) : Except α Unit × Queue α :=
  if q.cas_lock then (Except.error t, q)
  else (Except.ok (), ⟨q.pq.push t, false⟩)

/-- Model of `Queue::try_pop`: one CAS attempt.  If the flag is held the CAS
fails (`Err(())`); otherwise the heap's maximum (or `none`) is popped and the
flag released. -/
def try_pop (q : Queue α) : Except Unit (Option α) × Queue α :=
  if q.cas_lock then (Except.error (), q)
  else
    let r := q.pq.pop
    (Except.ok r.1, ⟨r.2, false⟩)

/-- Model of `Queue::clear`: spin until the CAS succeeds, then empty the heap.
With no other thread to release a held flag, the spin diverges: `none`. -/
def clear (q : Queue α) : Option (Queue α) :=
  if q.cas_lock then none
  else some ⟨q.pq.clear, false⟩

/-- Model of `Queue::take` (requires exclusive access, bypasses the lock):
replace the heap by a fresh empty heap of the same capacity, return the old. -/
def take (q : Queue α) : BinaryHeap α × Queue α :=
  (q.pq, ⟨⟨[], q.pq.capacity⟩, q.cas_lock⟩)

/-- Model of `Clone for Queue`: spin until acquired, clone the heap, release;
the clone gets a fresh free flag.  Returns `(clone, self after)`. -/
def clone (q : Queue α) : Option (Queue α × Queue α) :=
  if q.cas_lock then none
  else some (⟨q.pq, false⟩, ⟨q.pq, false⟩)

/-- Model of `Debug for Queue`: spin until acquired, read the heap contents,
release.  Returns the observed contents and the shard afterwards. -/
def fmt (q : Queue α) : Option (List α × Queue α) :=
  if q.cas_lock then none
  else some (q.pq.elems, ⟨q.pq, false⟩)

end Queue

/-- Model of `rand_distr::Uniform<usize>` as used here: the half-open sample
range `[lo, hi)`. -/
structure Uniform where
  lo : Nat
  hi : Nat
deriving Repr, DecidableEq

/-- Model of `Uniform::new(lo, hi)`: panics (`none`) when `lo ≥ hi`. -/
def Uniform.new (lo hi : Nat) : Option Uniform :=
  if lo < hi then some ⟨lo, hi⟩ else none

/-- Model of the public `MilkPQ<T>` type: the boxed slice of shards and the
uniform index distribution. -/
structure MilkPQ (α : Type) where
  queues : List (Queue α)
  dist : Uniform
deriving Repr, DecidableEq

namespace MilkPQ

variable {α : Type} [LinearOrder α]

/-- Model of `MilkPQ::with_queues(limit)`: `limit` shards with empty heaps;
`Uniform::new(0, limit)` panics when `limit = 0`. -/
def with_queues (limit : Nat) : Option (MilkPQ α) :=
  (Uniform.new 0 limit).map fun d =>
    ⟨List.replicate limit (Queue.new BinaryHeap.new), d⟩

/-- Model of `MilkPQ::with_capacity_and_queues(cap, limit)`. -/
def with_capacity_and_queues (cap limit : Nat) : Option (MilkPQ α) :=
  (Uniform.new 0 limit).map fun d =>
    ⟨List.replicate limit (Queue.new (BinaryHeap.with_capacity cap)), d⟩

/-- Model of `MilkPQ::new()`: `num_cpus::get() * 4` shards; `ncpu` is the
environment's CPU count, passed explicitly. -/
def new (ncpu : Nat) : Option (MilkPQ α) := with_queues (ncpu * 4)

/-- Model of `MilkPQ::with_capacity(cap)`. -/
def with_capacity (ncpu : Nat) (cap : Nat) : Option (MilkPQ α) :=
  with_capacity_and_queues cap (ncpu * 4)

/-- Model of `MilkPQ::push`: sample an index, `try_push` there; on CAS failure
take the element back, re-sample, retry.  `samples` is the oracle of successive
sampled indices; exhausting it (or an out-of-range index, which the real
distribution never yields) models non-termination. -/
def push (q : MilkPQ α) (t : α) : List Nat → Option (MilkPQ α)
  | [] => none
  | i :: is =>
    match q.queues[i]? with
    | none => none
    | some shard =>
      match shard.try_push t with
      | (Except.ok _, shard2) => some { q with queues := q.queues.set i shard2 }
      | (Except.error t2, _) => push q t2 is

/-- Model of `MilkPQ::pop`: sample an index, `try_pop` there; on CAS failure
re-sample and retry.  Returns the shard's `Option` unchanged on success. -/
def pop (q : MilkPQ α) : List Nat → Option (Option α × MilkPQ α)
  | [] => none
  | i :: is =>
    match q.queues[i]? with
    | none => none
    | some shard =>
      match shard.try_pop with
      | (Except.ok r, shard2) => some (r, { q with queues := q.queues.set i shard2 })
      | (Except.error _, _) => pop q is

/-- Model of the shard loop of `MilkPQ::strong_pop`: visit shards in index
order, spinning on each `try_pop` until acquired (divergence, `none`, if a flag
is held forever); return the first element found, else `none` found. -/
def strong_pop_go : List (Queue α) → Option (Option α × List (Queue α))
  | [] => some (none, [])
  | shard :: rest =>
    match shard.try_pop with
    | (Except.ok (some t), shard2) => some (some t, shard2 :: rest)
    | (Except.ok none, shard2) =>
      (strong_pop_go rest).map fun r => (r.1, shard2 :: r.2)
    | (Except.error _, _) => none

/-- Model of `MilkPQ::strong_pop`. -/
def strong_pop (q : MilkPQ α) : Option (Option α × MilkPQ α) :=
  (strong_pop_go q.queues).map fun r => (r.1, ⟨r.2, q.dist⟩)

/-- Model of `From<MilkPQ<T>> for Vec<T>`: concatenate every shard's heap
contents. -/
def into_vec (q : MilkPQ α) : List α := q.queues.flatMap fun s => s.pq.elems

/-- Model of `MilkPQ::into_sorted_vec`: flatten, then `sort_unstable_by` with
the reversed comparison, i.e. sort descending. -/
def into_sorted_vec (q : MilkPQ α) : List α :=
  List.insertionSort (· ≥ ·) q.into_vec

/-- Model of the shard loop of `MilkPQ::clear`: a blocking `Queue::clear` per
shard (divergence if some flag stays held). -/
def clear_go : List (Queue α) → Option (List (Queue α))
  | [] => some []
  | shard :: rest =>
    match shard.clear with
    | none => none
    | some shard2 => (clear_go rest).map fun l => shard2 :: l

/-- Model of `MilkPQ::clear`. -/
def clear (q : MilkPQ α) : Option (MilkPQ α) :=
  (clear_go q.queues).map fun l => ⟨l, q.dist⟩

/-- Model of the shard loop of `MilkPQ::drain`: `take` each shard's heap and
extend the result vector with its contents. -/
def drain_go : List (Queue α) → List α × List (Queue α)
  | [] => ([], [])
  | shard :: rest =>
    let t := shard.take
    let r := drain_go rest
    (t.1.elems ++ r.1, t.2 :: r.2)

/-- Model of `MilkPQ::drain` (requires exclusive access, no locking). -/
def drain (q : MilkPQ α) : List α × MilkPQ α :=
  let r := drain_go q.queues
  (r.1, ⟨r.2, q.dist⟩)

/-- Model of `MilkPQ::extend_ref`: push every yielded element in order.  Each
element comes with its own oracle of sampled indices. -/
def extend_ref (q : MilkPQ α) : List (α × List Nat) → Option (MilkPQ α)
  | [] => some q
  | (t, is) :: rest =>
    match q.push t is with
    | none => none
    | some q2 => extend_ref q2 rest

/-- Model of the push loop in `FromIterator for MilkPQ` (`for t in iter { pq.push(t) }`),
written separately from `extend_ref` because the source duplicates the loop. -/
def from_iter_go (q : MilkPQ α) : List (α × List Nat) → Option (MilkPQ α)
  | [] => some q
  | (t, is) :: rest =>
    match q.push t is with
    | none => none
    | some q2 => from_iter_go q2 rest

/-- Model of `FromIterator for MilkPQ`: construct with the iterator's lower
size bound (`size_hint().0`, which is the exact length for a list) as the
per-shard capacity, then push every element. -/
def from_iter (ncpu : Nat) (ts : List (α × List Nat)) : Option (MilkPQ α) :=
  match with_capacity ncpu ts.length with
  | none => none
  | some q => from_iter_go q ts

/-- Repeated `pop`: run `pop` once per entry of `sampless` (each entry the
sample oracle for that call), collecting the returned options. -/
def popSeq (q : MilkPQ α) : List (List Nat) → Option (List (Option α) × MilkPQ α)
  | [] => some ([], q)
  | is :: rest =>
    match q.pop is with
    | none => none
    | some r =>
      match popSeq r.2 rest with
      | none => none
      | some r2 => some (r.1 :: r2.1, r2.2)

/-- Repeated `strong_pop`, up to `n` times, stopping early at the first `none`
result; collects the elements returned. -/
def strongPopN (q : MilkPQ α) : Nat → Option (List α × MilkPQ α)
  | 0 => some ([], q)
  | n + 1 =>
    match q.strong_pop with
    | none => none
    | some (none, q2) => some ([], q2)
    | some (some t, q2) =>
      match strongPopN q2 n with
      | none => none
      | some r => some (t :: r.1, r.2)

/-- All shard flags are free: no operation is in progress. -/
def Quiescent (q : MilkPQ α) : Prop := ∀ s ∈ q.queues, s.cas_lock = false

instance (q : MilkPQ α) : Decidable q.Quiescent :=
  inferInstanceAs (Decidable (∀ s ∈ q.queues, s.cas_lock = false))

/-- Every shard's heap is descending-sorted (the representation invariant of
the sorted-list heap model; it holds for every reachable state). -/
def WF (q : MilkPQ α) : Prop := ∀ s ∈ q.queues, s.pq.elems.Sorted (· ≥ ·)

instance (q : MilkPQ α) : Decidable q.WF :=
  inferInstanceAs (Decidable (∀ s ∈ q.queues, s.pq.elems.Sorted (· ≥ ·)))


/-! ### Helper lemmas -/

/-- Decompose a list at a position known to hold `a`: `l = pre ++ a :: post`,
with `set i` replacing exactly that occurrence. -/
theorem getElem?_decomp {β : Type} {l : List β} {i : Nat} {a : β}
    (h : l[i]? = some a) :
    ∃ pre post, l = pre ++ a :: post ∧ pre.length = i ∧
      ∀ b, l.set i b = pre ++ b :: post := by
  induction l generalizing i with
  | nil => simp at h
  | cons x xs ih =>
    cases i with
    | zero =>
      simp only [List.getElem?_cons_zero, Option.some.injEq] at h
      exact ⟨[], xs, by simp [h], rfl, fun b => by simp⟩
    | succ n =>
      simp only [List.getElem?_cons_succ] at h
      obtain ⟨pre, post, hl, hlen, hset⟩ := ih h
      exact ⟨x :: pre, post, by simp [hl], by simp [hlen],
        fun b => by simp [List.set, hset b]⟩

end MilkPQ

open List

namespace MilkPQ

variable {α : Type} [LinearOrder α]

omit [LinearOrder α] in
theorem into_vec_mk (qs : List (Queue α)) (d : Uniform) :
    (MilkPQ.mk qs d).into_vec = qs.flatMap fun s => s.pq.elems := rfl

omit [LinearOrder α] in
theorem into_vec_eq_nil_iff (q : MilkPQ α) :
    q.into_vec = [] ↔ ∀ s ∈ q.queues, s.pq.elems = [] := by
  simp [into_vec, List.flatMap_eq_nil_iff]

/-- Characterization of a successful `push`: some sampled shard had a free
flag, the element was inserted there, and nothing else changed. -/
theorem push_eq_some {q q2 : MilkPQ α} {t : α} {samples : List Nat}
    (h : q.push t samples = some q2) :
    ∃ i shard, q.queues[i]? = some shard ∧ shard.cas_lock = false ∧
      q2 = { q with queues := q.queues.set i ⟨shard.pq.push t, false⟩ } := by
  induction samples with
  | nil => simp [push] at h
  | cons i is ih =>
    rw [push] at h
    cases hq : q.queues[i]? with
    | none => rw [hq] at h; cases h
    | some shard =>
      rw [hq] at h
      by_cases hl : shard.cas_lock
      · simp only [Queue.try_push, if_pos hl] at h
        exact ih h
      · simp only [Queue.try_push, if_neg hl] at h
        simp only [Option.some.injEq] at h
        exact ⟨i, shard, hq, Bool.eq_false_iff.mpr hl ▸ rfl, h.symm⟩

/-- What a successful `push` does to the observable state: the contents gain
exactly one copy of `t`; quiescence, well-formedness, the distribution and the
shard count are preserved. -/
theorem push_some_spec {q q2 : MilkPQ α} {t : α} {samples : List Nat}
    (h : q.push t samples = some q2) :
    q2.into_vec ~ t :: q.into_vec ∧ (q.Quiescent → q2.Quiescent) ∧
      (q.WF → q2.WF) ∧ q2.dist = q.dist ∧ q2.queues.length = q.queues.length := by
  obtain ⟨i, shard, hq, hl, rfl⟩ := push_eq_some h
  obtain ⟨pre, post, hdec, -, hset⟩ := getElem?_decomp hq
  have hmem : shard ∈ q.queues := hdec ▸ List.mem_append_right _ (List.mem_cons_self _ _)
  refine ⟨?_, ?_, ?_, rfl, by simp⟩
  · show ((q.queues.set i _).flatMap fun s => s.pq.elems) ~ t :: q.into_vec
    rw [hset, into_vec, hdec]
    simp only [List.flatMap_append, List.flatMap_cons]
    calc pre.flatMap (fun s => s.pq.elems) ++
          ((shard.pq.push t).elems ++ post.flatMap (fun s => s.pq.elems))
        ~ pre.flatMap (fun s => s.pq.elems) ++
          ((t :: shard.pq.elems) ++ post.flatMap (fun s => s.pq.elems)) := by
          exact List.Perm.append_left _
            (List.Perm.append_right _ (List.perm_orderedInsert _ _ _))
      _ ~ t :: (pre.flatMap (fun s => s.pq.elems) ++
          (shard.pq.elems ++ post.flatMap (fun s => s.pq.elems))) := by
          rw [← List.cons_append]
          exact List.perm_middle
  · intro hquiet s hs
    rw [hset] at hs
    rcases List.mem_append.1 hs with hs | hs
    · exact hquiet s (hdec ▸ List.mem_append_left _ hs)
    · rcases List.mem_cons.1 hs with rfl | hs
      · rfl
      · exact hquiet s (hdec ▸ List.mem_append_right _ (List.mem_cons_of_mem _ hs))
  · intro hwf s hs
    rw [hset] at hs
    rcases List.mem_append.1 hs with hs | hs
    · exact hwf s (hdec ▸ List.mem_append_left _ hs)
    · rcases List.mem_cons.1 hs with rfl | hs
      · exact List.Sorted.orderedInsert t _ (hwf shard hmem)
      · exact hwf s (hdec ▸ List.mem_append_right _ (List.mem_cons_of_mem _ hs))

/-- What a successful `extend_ref` does: the contents gain exactly the pushed
elements; quiescence, well-formedness, the distribution and the shard count are
preserved. -/
theorem extend_ref_some_spec {q q2 : MilkPQ α} {ts : List (α × List Nat)}
    (h : q.extend_ref ts = some q2) :
    q2.into_vec ~ ts.map Prod.fst ++ q.into_vec ∧ (q.Quiescent → q2.Quiescent) ∧
      (q.WF → q2.WF) ∧ q2.dist = q.dist ∧ q2.queues.length = q.queues.length := by
  induction ts generalizing q with
  | nil =>
    rw [extend_ref] at h
    cases h
    exact ⟨by simp, id, id, rfl, rfl⟩
  | cons p rest ih =>
    obtain ⟨t, is⟩ := p
    rw [extend_ref] at h
    cases hp : q.push t is with
    | none => rw [hp] at h; cases h
    | some q1 =>
      rw [hp] at h
      obtain ⟨hperm1, hq1, hwf1, hd1, hn1⟩ := push_some_spec hp
      obtain ⟨hperm2, hq2, hwf2, hd2, hn2⟩ := ih h
      refine ⟨?_, fun hq => hq2 (hq1 hq), fun hw => hwf2 (hwf1 hw),
        hd2.trans hd1, hn2.trans hn1⟩
      calc q2.into_vec ~ rest.map Prod.fst ++ q1.into_vec := hperm2
        _ ~ rest.map Prod.fst ++ (t :: q.into_vec) := (hperm1.append_left _)
        _ ~ t :: (rest.map Prod.fst ++ q.into_vec) := List.perm_middle
        _ = ((t, is) :: rest).map Prod.fst ++ q.into_vec := by simp

end MilkPQ

namespace MilkPQ

variable {α : Type} [LinearOrder α]

omit [LinearOrder α] in
/-- A queue built by `with_capacity_and_queues` has a positive shard count,
`limit` empty shards of capacity `cap`, all flags free. -/
theorem with_capacity_and_queues_eq_some {cap limit : Nat} {q : MilkPQ α}
    (h : with_capacity_and_queues cap limit = some q) :
    0 < limit ∧ q.queues = List.replicate limit ⟨⟨[], cap⟩, false⟩ ∧
      q.dist = ⟨0, limit⟩ := by
  unfold with_capacity_and_queues Uniform.new at h
  by_cases hl : 0 < limit
  · rw [if_pos hl, Option.map_some'] at h
    cases h
    exact ⟨hl, rfl, rfl⟩
  · simp [if_neg hl] at h

omit [LinearOrder α] in
/-- A queue built by `with_queues` has a positive shard count, `limit` empty
shards of capacity `0`, all flags free. -/
theorem with_queues_eq_some {limit : Nat} {q : MilkPQ α}
    (h : with_queues limit = some q) :
    0 < limit ∧ q.queues = List.replicate limit ⟨⟨[], 0⟩, false⟩ ∧
      q.dist = ⟨0, limit⟩ := by
  unfold with_queues Uniform.new at h
  by_cases hl : 0 < limit
  · rw [if_pos hl, Option.map_some'] at h
    cases h
    exact ⟨hl, rfl, rfl⟩
  · simp [if_neg hl] at h

/-- A queue whose shards are all empty with free flags is quiescent,
well-formed and has no contents. -/
theorem replicate_empty_spec (n cap : Nat) (d : Uniform) :
    (MilkPQ.mk (List.replicate n (⟨⟨[], cap⟩, false⟩ : Queue α)) d).Quiescent ∧
      (MilkPQ.mk (List.replicate n (⟨⟨[], cap⟩, false⟩ : Queue α)) d).WF ∧
      (MilkPQ.mk (List.replicate n (⟨⟨[], cap⟩, false⟩ : Queue α)) d).into_vec = [] := by
  refine ⟨fun s hs => ?_, fun s hs => ?_, ?_⟩
  · rw [List.eq_of_mem_replicate hs]
  · rw [List.eq_of_mem_replicate hs]; exact List.sorted_nil
  · rw [into_vec_eq_nil_iff]
    intro s hs
    rw [List.eq_of_mem_replicate hs]

omit [LinearOrder α] in
/-- A successful first-sample `pop`: with the sampled shard's flag free, `pop`
returns that shard's heap-pop result as a success and updates only that shard. -/
theorem pop_first_sample {q : MilkPQ α} {i : Nat} {shard : Queue α}
    (hq : q.queues[i]? = some shard) (hfree : shard.cas_lock = false)
    (is : List Nat) :
    q.pop (i :: is) =
      some ((shard.pq.pop).1, { q with queues := q.queues.set i ⟨(shard.pq.pop).2, false⟩ }) := by
  rw [pop, hq]
  simp only [Queue.try_pop, hfree, if_neg Bool.false_ne_true]

omit [LinearOrder α] in
/-- The shard loop of `strong_pop` on quiescent shards: either every shard is
empty (and the loop returns `none` leaving the shards unchanged), or there is a
first non-empty shard, whose maximum is returned and removed. -/
theorem strong_pop_go_spec (qs : List (Queue α)) (hq : ∀ s ∈ qs, s.cas_lock = false) :
    ((∀ s ∈ qs, s.pq.elems = []) ∧ strong_pop_go qs = some (none, qs)) ∨
    (∃ j x xs c, qs[j]? = some ⟨⟨x :: xs, c⟩, false⟩ ∧
      (∀ k, k < j → ∃ c2, qs[k]? = some ⟨⟨[], c2⟩, false⟩) ∧
      strong_pop_go qs = some (some x, qs.set j ⟨⟨xs, c⟩, false⟩)) := by
  induction qs with
  | nil => exact Or.inl ⟨by simp, rfl⟩
  | cons s rest ih =>
    obtain ⟨⟨elems, c⟩, lock⟩ := s
    have hlock : lock = false := hq _ (List.mem_cons_self _ _)
    subst hlock
    cases elems with
    | cons x xs =>
      refine Or.inr ⟨0, x, xs, c, by simp, by omega, ?_⟩
      simp [strong_pop_go, Queue.try_pop, BinaryHeap.pop]
    | nil =>
      have hrest : ∀ s ∈ rest, s.cas_lock = false :=
        fun s hs => hq s (List.mem_cons_of_mem _ hs)
      rcases ih hrest with ⟨hempty, hgo⟩ | ⟨j, x, xs, c2, hj, hbefore, hgo⟩
      · refine Or.inl ⟨?_, ?_⟩
        · intro s hs
          rcases List.mem_cons.1 hs with rfl | hs
          · rfl
          · exact hempty s hs
        · simp [strong_pop_go, Queue.try_pop, BinaryHeap.pop, hgo]
      · refine Or.inr ⟨j + 1, x, xs, c2, by simpa using hj, ?_, ?_⟩
        · intro k hk
          cases k with
          | zero => exact ⟨c, by simp⟩
          | succ k => simpa using hbefore k (by omega)
        · simp [strong_pop_go, Queue.try_pop, BinaryHeap.pop, hgo, List.set]


omit [LinearOrder α] in
/-- `strong_pop` on a quiescent queue: it terminates, preserves quiescence,
returns `none` exactly when every shard is empty (leaving the queue unchanged),
and otherwise returns the maximum of the first non-empty shard, removing it. -/
theorem strong_pop_spec (q : MilkPQ α) (hq : q.Quiescent) :
    ∃ r q2, q.strong_pop = some (r, q2) ∧ q2.Quiescent ∧ q2.dist = q.dist ∧
      (r = none ↔ ∀ s ∈ q.queues, s.pq.elems = []) ∧
      (r = none → q2 = q) ∧
      (∀ x, r = some x →
        (∃ j xs c, q.queues[j]? = some ⟨⟨x :: xs, c⟩, false⟩ ∧
          (∀ k, k < j → ∃ c2, q.queues[k]? = some ⟨⟨[], c2⟩, false⟩) ∧
          q2 = ⟨q.queues.set j ⟨⟨xs, c⟩, false⟩, q.dist⟩) ∧
        q.into_vec ~ x :: q2.into_vec) := by
  rcases strong_pop_go_spec q.queues hq with ⟨hempty, hgo⟩ |
    ⟨j, x, xs, c, hj, hbefore, hgo⟩
  · refine ⟨none, q, ?_, hq, rfl, iff_of_true rfl hempty, fun _ => rfl,
      fun x hx => by cases hx⟩
    show (strong_pop_go q.queues).map _ = _
    rw [hgo, Option.map_some']
  · obtain ⟨pre, post, hdec, -, hset⟩ := getElem?_decomp hj
    refine ⟨some x, ⟨q.queues.set j ⟨⟨xs, c⟩, false⟩, q.dist⟩, ?_, ?_, rfl, ?_, ?_, ?_⟩
    · show (strong_pop_go q.queues).map _ = _
      rw [hgo, Option.map_some']
    · intro s hs
      rw [hset] at hs
      rcases List.mem_append.1 hs with hs | hs
      · exact hq s (hdec ▸ List.mem_append_left _ hs)
      · rcases List.mem_cons.1 hs with rfl | hs
        · rfl
        · exact hq s (hdec ▸ List.mem_append_right _ (List.mem_cons_of_mem _ hs))
    · refine iff_of_false (by simp) fun hall => ?_
      have := hall ⟨⟨x :: xs, c⟩, false⟩
        (hdec ▸ List.mem_append_right _ (List.mem_cons_self _ _))
      cases this
    · intro hfalse; cases hfalse
    · intro y hy
      cases hy
      refine ⟨⟨j, xs, c, hj, hbefore, rfl⟩, ?_⟩
      show (q.queues.flatMap fun s => s.pq.elems) ~
        x :: ((q.queues.set j ⟨⟨xs, c⟩, false⟩).flatMap fun s => s.pq.elems)
      rw [hset, hdec]
      simp only [List.flatMap_append, List.flatMap_cons]
      calc pre.flatMap (fun s => s.pq.elems) ++
            ((x :: xs) ++ post.flatMap (fun s => s.pq.elems))
          ~ x :: (pre.flatMap (fun s => s.pq.elems) ++
            (xs ++ post.flatMap (fun s => s.pq.elems))) := by
            rw [← List.cons_append]
            exact List.perm_middle
        _ = _ := rfl

omit [LinearOrder α] in
/-- Iterating `strong_pop` as many times as there are elements drains a
quiescent queue: it yields exactly the contents, leaves every shard empty, and
one further `strong_pop` returns `none` without changing anything. -/
theorem strongPopN_drain (n : Nat) :
    ∀ q : MilkPQ α, q.Quiescent → q.into_vec.length = n →
      ∃ outs qend, q.strongPopN n = some (outs, qend) ∧ outs ~ q.into_vec ∧
        qend.Quiescent ∧ (∀ s ∈ qend.queues, s.pq.elems = []) ∧
        qend.strong_pop = some (none, qend) := by
  induction n with
  | zero =>
    intro q hq hlen
    have hnil : q.into_vec = [] := List.eq_nil_of_length_eq_zero hlen
    have hall : ∀ s ∈ q.queues, s.pq.elems = [] := (into_vec_eq_nil_iff q).1 hnil
    obtain ⟨r, q2, hsp, -, -, hiff, hnone, -⟩ := strong_pop_spec q hq
    have hr : r = none := hiff.2 hall
    subst hr
    refine ⟨[], q, rfl, by rw [hnil], hq, hall, ?_⟩
    rw [hsp, hnone rfl]
  | succ n ih =>
    intro q hq hlen
    obtain ⟨r, q2, hsp, hq2, -, hiff, -, hsome⟩ := strong_pop_spec q hq
    cases r with
    | none =>
      have hall := hiff.1 rfl
      have : q.into_vec = [] := (into_vec_eq_nil_iff q).2 hall
      rw [this] at hlen
      cases hlen
    | some x =>
      obtain ⟨-, hperm⟩ := hsome x rfl
      have hlen2 : q2.into_vec.length = n := by
        have := hperm.length_eq
        simp only [List.length_cons] at this
        omega
      obtain ⟨outs, qend, hrec, houts, hqend, hallend, hlast⟩ := ih q2 hq2 hlen2
      refine ⟨x :: outs, qend, ?_, ?_, hqend, hallend, hlast⟩
      · simp [strongPopN, hsp, hrec]
      · exact (houts.cons x).trans hperm.symm

omit [LinearOrder α] in
/-- The shard loop of `clear` on quiescent shards: every shard is emptied, all
flags end free, capacities are kept. -/
theorem clear_go_spec (qs : List (Queue α)) (hq : ∀ s ∈ qs, s.cas_lock = false) :
    clear_go qs = some (qs.map fun s => ⟨⟨[], s.pq.cap⟩, false⟩) := by
  induction qs with
  | nil => rfl
  | cons s rest ih =>
    have hs : s.cas_lock = false := hq s (List.mem_cons_self _ _)
    have hrest := ih fun s hs => hq s (List.mem_cons_of_mem _ hs)
    simp [clear_go, Queue.clear, BinaryHeap.clear, hs, hrest]

omit [LinearOrder α] in
/-- Repeated `pop` (always sampling index 0) on a one-shard queue returns the
shard's list of elements front to back, then `none`, leaving the queue empty. -/
theorem popSeq_single (l : List α) (c : Nat) (d : Uniform) :
    (MilkPQ.mk [⟨⟨l, c⟩, false⟩] d).popSeq (List.replicate (l.length + 1) [0]) =
      some (l.map some ++ [none], MilkPQ.mk [⟨⟨[], c⟩, false⟩] d) := by
  induction l with
  | nil =>
    simp [popSeq, pop, Queue.try_pop, BinaryHeap.pop, List.replicate]
  | cons x xs ih =>
    rw [List.length_cons, List.replicate_succ, popSeq,
      pop_first_sample (rfl : _ = some (⟨⟨x :: xs, c⟩, false⟩ : Queue α)) rfl]
    simp only [BinaryHeap.pop, List.set]
    rw [ih]
    rfl

/-- The push loop of `FromIterator` is the push loop of `extend_ref`. -/
theorem from_iter_go_eq_extend_ref (q : MilkPQ α) (ts : List (α × List Nat)) :
    from_iter_go q ts = extend_ref q ts := by
  induction ts generalizing q with
  | nil => rfl
  | cons p rest ih =>
    obtain ⟨t, is⟩ := p
    rw [from_iter_go, extend_ref]
    cases q.push t is with
    | none => rfl
    | some q2 => simp only [ih]

end MilkPQ

namespace MilkPQ

variable {α : Type} [LinearOrder α]
/-! ### Claim theorems -/

/-- C1: for every finite sequence of values pushed (single-threaded) into a
queue constructed by any constructor, `into_sorted_vec` returns exactly the
multiset of pushed values, sorted in descending order of the element order; in
particular pushing [5, 3, 8, 1, 9, 2] and calling `into_sorted_vec` yields
[9, 8, 5, 3, 2, 1]. -/
theorem C1_into_sorted_vec (ncpu cap limit : Nat) (q0 q1 : MilkPQ α)
    (ts : List (α × List Nat))
    (h0 : MilkPQ.new ncpu = some q0 ∨ MilkPQ.with_queues limit = some q0 ∨
      MilkPQ.with_capacity ncpu cap = some q0 ∨
      MilkPQ.with_capacity_and_queues cap limit = some q0)
    (h1 : q0.extend_ref ts = some q1) :
    q1.into_sorted_vec.Sorted (· ≥ ·) ∧ q1.into_sorted_vec ~ ts.map Prod.fst ∧
    ((MilkPQ.new 1 : Option (MilkPQ Nat)).bind (fun q =>
        (q.extend_ref [(5, [0]), (3, [1]), (8, [2]), (1, [3]), (9, [0]), (2, [1])]).map
          MilkPQ.into_sorted_vec) = some [9, 8, 5, 3, 2, 1]) := by
  have hempty : q0.into_vec = [] := by
    rw [into_vec_eq_nil_iff]
    rcases h0 with h | h | h | h
    · obtain ⟨-, hqs, -⟩ := with_queues_eq_some (q := q0) h
      rw [hqs]; intro s hs; rw [List.eq_of_mem_replicate hs]
    · obtain ⟨-, hqs, -⟩ := with_queues_eq_some h
      rw [hqs]; intro s hs; rw [List.eq_of_mem_replicate hs]
    · obtain ⟨-, hqs, -⟩ := with_capacity_and_queues_eq_some (q := q0) h
      rw [hqs]; intro s hs; rw [List.eq_of_mem_replicate hs]
    · obtain ⟨-, hqs, -⟩ := with_capacity_and_queues_eq_some h
      rw [hqs]; intro s hs; rw [List.eq_of_mem_replicate hs]
  obtain ⟨hperm, -, -, -, -⟩ := extend_ref_some_spec h1
  refine ⟨List.sorted_insertionSort _ _, ?_, by decide⟩
  calc q1.into_sorted_vec ~ q1.into_vec := List.perm_insertionSort _ _
    _ ~ ts.map Prod.fst ++ q0.into_vec := hperm
    _ = ts.map Prod.fst := by rw [hempty, List.append_nil]

/-- Witness for C1: the scenario of S1 with four shards (`ncpu = 1`), pushing
[5, 3, 8, 1, 9, 2] at sampled indices 0,1,2,3,0,1. -/
theorem C1_witness :
    (MilkPQ.with_queues 4 =
      some (⟨List.replicate 4 ⟨⟨[], 0⟩, false⟩, ⟨0, 4⟩⟩ : MilkPQ Nat)) ∧
    ((⟨List.replicate 4 ⟨⟨[], 0⟩, false⟩, ⟨0, 4⟩⟩ : MilkPQ Nat).extend_ref
        [(5, [0]), (3, [1]), (8, [2]), (1, [3]), (9, [0]), (2, [1])] =
      some ⟨[⟨⟨[9, 5], 2⟩, false⟩, ⟨⟨[3, 2], 2⟩, false⟩, ⟨⟨[8], 1⟩, false⟩,
        ⟨⟨[1], 1⟩, false⟩], ⟨0, 4⟩⟩) ∧
    ((⟨[⟨⟨[9, 5], 2⟩, false⟩, ⟨⟨[3, 2], 2⟩, false⟩, ⟨⟨[8], 1⟩, false⟩,
        ⟨⟨[1], 1⟩, false⟩], ⟨0, 4⟩⟩ : MilkPQ Nat).into_sorted_vec.Sorted (· ≥ ·) ∧
      (⟨[⟨⟨[9, 5], 2⟩, false⟩, ⟨⟨[3, 2], 2⟩, false⟩, ⟨⟨[8], 1⟩, false⟩,
        ⟨⟨[1], 1⟩, false⟩], ⟨0, 4⟩⟩ : MilkPQ Nat).into_sorted_vec ~
        ([(5, [0]), (3, [1]), (8, [2]), (1, [3]), (9, [0]), (2, [1])].map Prod.fst :
          List Nat) ∧
      ((MilkPQ.new 1 : Option (MilkPQ Nat)).bind (fun q =>
        (q.extend_ref [(5, [0]), (3, [1]), (8, [2]), (1, [3]), (9, [0]), (2, [1])]).map
          MilkPQ.into_sorted_vec) = some [9, 8, 5, 3, 2, 1])) :=
  ⟨by decide, by decide,
    C1_into_sorted_vec 1 0 4
      ⟨List.replicate 4 ⟨⟨[], 0⟩, false⟩, ⟨0, 4⟩⟩
      ⟨[⟨⟨[9, 5], 2⟩, false⟩, ⟨⟨[3, 2], 2⟩, false⟩, ⟨⟨[8], 1⟩, false⟩,
        ⟨⟨[1], 1⟩, false⟩], ⟨0, 4⟩⟩
      [(5, [0]), (3, [1]), (8, [2]), (1, [3]), (9, [0]), (2, [1])]
      (Or.inr (Or.inl (by decide))) (by decide)⟩

/-- C2 (amended): for a queue with one shard, single-threaded, after pushing
v1…vk into the empty queue, `pop` returns the maximum; repeated pops return
the remaining elements in descending (non-increasing) order and then `none`.
(The original claim said strictly descending, which fails when duplicates are
pushed; see the counterexample.) -/
theorem C2_single_shard_pops (ts : List α) (hne : ts ≠ []) (q0 q1 : MilkPQ α)
    (h0 : with_queues 1 = some q0)
    (h1 : q0.extend_ref (ts.map fun t => (t, [0])) = some q1) :
    ∃ outs qend,
      q1.popSeq (List.replicate (ts.length + 1) [0]) = some (outs, qend) ∧
      outs = (List.insertionSort (· ≥ ·) ts).map some ++ [none] ∧
      (∃ m, outs.head? = some (some m) ∧ m ∈ ts ∧ ∀ v ∈ ts, v ≤ m) ∧
      qend.into_vec = [] := by
  obtain ⟨-, hqs, -⟩ := with_queues_eq_some h0
  have hq0 : q0.Quiescent := by
    intro s hs; rw [hqs] at hs; rw [List.eq_of_mem_replicate hs]
  have hw0 : q0.WF := by
    intro s hs; rw [hqs] at hs; rw [List.eq_of_mem_replicate hs]
    exact List.sorted_nil
  have h0vec : q0.into_vec = [] := by
    rw [into_vec_eq_nil_iff]
    intro s hs; rw [hqs] at hs; rw [List.eq_of_mem_replicate hs]
  obtain ⟨hperm, hq1, hw1, -, hlen⟩ := extend_ref_some_spec h1
  have hmapfst : ∀ us : List α, (us.map fun t => (t, ([0] : List Nat))).map Prod.fst = us := by
    intro us
    induction us with
    | nil => rfl
    | cons a l ih => simp only [List.map_cons]; rw [ih]
  have hperm2 : q1.into_vec ~ ts := by
    rw [hmapfst ts, h0vec, List.append_nil] at hperm
    exact hperm
  rw [hqs, List.length_replicate] at hlen
  obtain ⟨s, hs1⟩ := List.length_eq_one.1 hlen
  have hsmem : s ∈ q1.queues := hs1 ▸ List.mem_cons_self _ _
  have hsfree : s.cas_lock = false := hq1 hq0 s hsmem
  have hssort : s.pq.elems.Sorted (· ≥ ·) := hw1 hw0 s hsmem
  have hints : q1.into_vec = s.pq.elems := by simp [into_vec, hs1]
  have hpermel : s.pq.elems ~ ts := by rw [← hints]; exact hperm2
  have hel : s.pq.elems = List.insertionSort (· ≥ ·) ts :=
    List.eq_of_perm_of_sorted
      (hpermel.trans (List.perm_insertionSort _ _).symm) hssort
      (List.sorted_insertionSort _ _)
  have hq1eq : q1 = MilkPQ.mk [s] q1.dist := by rw [← hs1]
  have hlent : ts.length = s.pq.elems.length := hpermel.length_eq.symm
  obtain ⟨⟨l, c⟩, lock⟩ := s
  simp only at hsfree hssort hel hints hlent
  subst hsfree
  refine ⟨l.map some ++ [none], MilkPQ.mk [⟨⟨[], c⟩, false⟩] q1.dist, ?_, ?_, ?_, ?_⟩
  · rw [hq1eq, hlent]
    exact popSeq_single l c q1.dist
  · rw [hel]
  · cases hL : List.insertionSort (· ≥ ·) ts with
    | nil =>
      exfalso
      have : ts.length = 0 := by
        rw [hlent, hel, hL]
        rfl
      exact hne (List.eq_nil_of_length_eq_zero this)
    | cons m rest =>
      refine ⟨m, by simp [hel, hL], ?_, ?_⟩
      · exact (List.perm_insertionSort _ ts).mem_iff.1 (hL ▸ List.mem_cons_self m rest)
      intro v hv
      have hvmem : v ∈ m :: rest := by
        rw [← hL]
        exact (List.perm_insertionSort _ ts).symm.mem_iff.1 hv
      rcases List.mem_cons.1 hvmem with rfl | hvm
      · exact le_refl v
      · have hsort : (m :: rest).Sorted (· ≥ ·) := by
          rw [← hL]
          exact List.sorted_insertionSort _ _
        exact List.rel_of_sorted_cons hsort v hvm
  · simp [into_vec]

/-- Counterexample to C2 as stated: with one shard, pushing the duplicate
values [1, 1] and popping twice returns 1 and then 1 again — the popped
elements are not strictly descending. -/
theorem C2_counterexample :
    ((MilkPQ.with_queues 1 : Option (MilkPQ Nat)).bind fun q0 =>
      (q0.extend_ref [(1, [0]), (1, [0])]).bind fun q1 =>
      (q1.popSeq [[0], [0]]).map Prod.fst) = some [some 1, some 1] ∧
    ¬ ([(1 : Nat), 1].Sorted (· > ·)) := by decide

/-- Witness for C2: scenario S2 — one shard, push [10, 20, 5], four pops
return Some 20, Some 10, Some 5, None. -/
theorem C2_witness :
    ([(10 : Nat), 20, 5] ≠ []) ∧
    (MilkPQ.with_queues 1 = some (⟨[⟨⟨[], 0⟩, false⟩], ⟨0, 1⟩⟩ : MilkPQ Nat)) ∧
    ((⟨[⟨⟨[], 0⟩, false⟩], ⟨0, 1⟩⟩ : MilkPQ Nat).extend_ref
        ([(10 : Nat), 20, 5].map fun t => (t, [0])) =
      some ⟨[⟨⟨[20, 10, 5], 3⟩, false⟩], ⟨0, 1⟩⟩) ∧
    (∃ outs qend,
      (⟨[⟨⟨[20, 10, 5], 3⟩, false⟩], ⟨0, 1⟩⟩ : MilkPQ Nat).popSeq
        (List.replicate ([(10 : Nat), 20, 5].length + 1) [0]) = some (outs, qend) ∧
      outs = (List.insertionSort (· ≥ ·) [(10 : Nat), 20, 5]).map some ++ [none] ∧
      (∃ m, outs.head? = some (some m) ∧ m ∈ [(10 : Nat), 20, 5] ∧
        ∀ v ∈ [(10 : Nat), 20, 5], v ≤ m) ∧
      qend.into_vec = []) :=
  ⟨by decide, by decide, by decide,
    C2_single_shard_pops [10, 20, 5] (by decide)
      ⟨[⟨⟨[], 0⟩, false⟩], ⟨0, 1⟩⟩ ⟨[⟨⟨[20, 10, 5], 3⟩, false⟩], ⟨0, 1⟩⟩
      (by decide) (by decide)⟩

omit [LinearOrder α] in
/-- C3: `strong_pop` visits shards in index order and returns some element of
the first non-empty shard; it returns `none` only when every shard was found
empty.  Hence on a quiescent queue: `strong_pop` returns some element iff the
queue is non-empty, and repeating it drains the queue, returning `none` exactly
once at the end. -/
theorem C3_strong_pop (q : MilkPQ α) (hq : q.Quiescent) :
    ∃ r q2, q.strong_pop = some (r, q2) ∧
      (r = none ↔ q.into_vec = []) ∧
      (∀ x, r = some x → ∃ j xs c, q.queues[j]? = some ⟨⟨x :: xs, c⟩, false⟩ ∧
        (∀ k, k < j → ∃ c2, q.queues[k]? = some ⟨⟨[], c2⟩, false⟩) ∧
        q2 = ⟨q.queues.set j ⟨⟨xs, c⟩, false⟩, q.dist⟩) ∧
      (∃ outs qend, q.strongPopN q.into_vec.length = some (outs, qend) ∧
        outs ~ q.into_vec ∧ qend.into_vec = [] ∧
        qend.strong_pop = some (none, qend)) := by
  obtain ⟨r, q2, hsp, hq2, hd, hiff, hnone, hsome⟩ := strong_pop_spec q hq
  refine ⟨r, q2, hsp, ?_, ?_, ?_⟩
  · rw [into_vec_eq_nil_iff]
    exact hiff
  · intro x hx
    exact (hsome x hx).1
  · obtain ⟨outs, qend, h1, h2, h3, h4, h5⟩ :=
      strongPopN_drain q.into_vec.length q hq rfl
    exact ⟨outs, qend, h1, h2, (into_vec_eq_nil_iff qend).2 h4, h5⟩

/-- Witness for C3: a quiescent two-shard queue whose first shard is empty and
whose second holds [2, 1]. -/
theorem C3_witness :
    (⟨[⟨⟨[], 0⟩, false⟩, ⟨⟨[2, 1], 2⟩, false⟩], ⟨0, 2⟩⟩ : MilkPQ Nat).Quiescent ∧
    (∃ r q2, (⟨[⟨⟨[], 0⟩, false⟩, ⟨⟨[2, 1], 2⟩, false⟩], ⟨0, 2⟩⟩ :
        MilkPQ Nat).strong_pop = some (r, q2) ∧
      (r = none ↔ (⟨[⟨⟨[], 0⟩, false⟩, ⟨⟨[2, 1], 2⟩, false⟩], ⟨0, 2⟩⟩ :
        MilkPQ Nat).into_vec = []) ∧
      (∀ x, r = some x → ∃ j xs c,
        (⟨[⟨⟨[], 0⟩, false⟩, ⟨⟨[2, 1], 2⟩, false⟩], ⟨0, 2⟩⟩ :
          MilkPQ Nat).queues[j]? = some ⟨⟨x :: xs, c⟩, false⟩ ∧
        (∀ k, k < j → ∃ c2, (⟨[⟨⟨[], 0⟩, false⟩, ⟨⟨[2, 1], 2⟩, false⟩], ⟨0, 2⟩⟩ :
          MilkPQ Nat).queues[k]? = some ⟨⟨[], c2⟩, false⟩) ∧
        q2 = ⟨(⟨[⟨⟨[], 0⟩, false⟩, ⟨⟨[2, 1], 2⟩, false⟩], ⟨0, 2⟩⟩ :
          MilkPQ Nat).queues.set j ⟨⟨xs, c⟩, false⟩, ⟨0, 2⟩⟩) ∧
      (∃ outs qend, (⟨[⟨⟨[], 0⟩, false⟩, ⟨⟨[2, 1], 2⟩, false⟩], ⟨0, 2⟩⟩ :
          MilkPQ Nat).strongPopN
          (⟨[⟨⟨[], 0⟩, false⟩, ⟨⟨[2, 1], 2⟩, false⟩], ⟨0, 2⟩⟩ :
            MilkPQ Nat).into_vec.length = some (outs, qend) ∧
        outs ~ (⟨[⟨⟨[], 0⟩, false⟩, ⟨⟨[2, 1], 2⟩, false⟩], ⟨0, 2⟩⟩ :
          MilkPQ Nat).into_vec ∧ qend.into_vec = [] ∧
        qend.strong_pop = some (none, qend))) :=
  ⟨by decide, C3_strong_pop _ (by decide)⟩

omit [LinearOrder α] in
/-- C4: `pop` succeeds at the first free sampled shard and returns `none` iff
that shard is empty at that moment — not iff the whole queue is empty; an empty
shard is reported as success-with-`none`, and on an empty queue `pop` returns
`none` whatever index was sampled. -/
theorem C4_pop_none_iff (q : MilkPQ α) (hq : q.Quiescent) (i : Nat)
    (shard : Queue α) (hi : q.queues[i]? = some shard) (is : List Nat) :
    (∃ q2, q.pop (i :: is) = some ((shard.pq.pop).1, q2)) ∧
    ((shard.pq.pop).1 = none ↔ shard.pq.elems = []) ∧
    ((∀ s ∈ q.queues, s.pq.elems = []) → q.pop (i :: is) = some (none, q)) := by
  obtain ⟨pre, post, hdec, -, hset⟩ := getElem?_decomp hi
  have hmem : shard ∈ q.queues :=
    hdec ▸ List.mem_append_right _ (List.mem_cons_self _ _)
  have hfree : shard.cas_lock = false := hq shard hmem
  refine ⟨⟨_, pop_first_sample hi hfree is⟩, ?_, ?_⟩
  · obtain ⟨⟨elems, c⟩, lock⟩ := shard
    cases elems with
    | nil => simp [BinaryHeap.pop]
    | cons x xs => simp [BinaryHeap.pop]
  · intro hall
    have hel : shard.pq.elems = [] := hall shard hmem
    have hpop : shard.pq.pop = (none, shard.pq) := by
      obtain ⟨⟨elems, c⟩, lock⟩ := shard
      simp only at hel
      subst hel
      rfl
    rw [pop_first_sample hi hfree is, hpop]
    have hshard : (⟨shard.pq, false⟩ : Queue α) = shard := by rw [← hfree]
    rw [hshard, hset shard, ← hdec]

/-- Witness for C4: a quiescent queue with an empty shard 0 and a non-empty
shard 1; sampling index 0 succeeds with `none` though the queue is non-empty. -/
theorem C4_witness :
    ((⟨[⟨⟨[], 0⟩, false⟩, ⟨⟨[5], 1⟩, false⟩], ⟨0, 2⟩⟩ : MilkPQ Nat).Quiescent ∧
      (⟨[⟨⟨[], 0⟩, false⟩, ⟨⟨[5], 1⟩, false⟩], ⟨0, 2⟩⟩ :
        MilkPQ Nat).queues[0]? = some ⟨⟨[], 0⟩, false⟩) ∧
    ((∃ q2, (⟨[⟨⟨[], 0⟩, false⟩, ⟨⟨[5], 1⟩, false⟩], ⟨0, 2⟩⟩ : MilkPQ Nat).pop [0] =
        some (((⟨⟨[], 0⟩, false⟩ : Queue Nat).pq.pop).1, q2)) ∧
      (((⟨⟨[], 0⟩, false⟩ : Queue Nat).pq.pop).1 = none ↔
        (⟨⟨[], 0⟩, false⟩ : Queue Nat).pq.elems = []) ∧
      ((∀ s ∈ (⟨[⟨⟨[], 0⟩, false⟩, ⟨⟨[5], 1⟩, false⟩], ⟨0, 2⟩⟩ :
          MilkPQ Nat).queues, s.pq.elems = []) →
        (⟨[⟨⟨[], 0⟩, false⟩, ⟨⟨[5], 1⟩, false⟩], ⟨0, 2⟩⟩ : MilkPQ Nat).pop [0] =
          some (none, ⟨[⟨⟨[], 0⟩, false⟩, ⟨⟨[5], 1⟩, false⟩], ⟨0, 2⟩⟩))) :=
  ⟨⟨by decide, by decide⟩,
    C4_pop_none_iff ⟨[⟨⟨[], 0⟩, false⟩, ⟨⟨[5], 1⟩, false⟩], ⟨0, 2⟩⟩ (by decide) 0
      ⟨⟨[], 0⟩, false⟩ (by decide) []⟩

/-- C5: `try_push` performs exactly one CAS — on a held lock it hands the very
element back with the shard unchanged and no retry; on a free lock it inserts
the element and releases.  A completed `push` therefore adds exactly one copy
of the element to exactly one (free) shard, so nothing is lost or duplicated. -/
theorem C5_try_push_once (s : Queue α) (t : α) (q q2 : MilkPQ α) (u : α)
    (samples : List Nat) (hp : q.push u samples = some q2) :
    (s.cas_lock = true → s.try_push t = (Except.error t, s)) ∧
    (s.cas_lock = false → s.try_push t = (Except.ok (), ⟨s.pq.push t, false⟩) ∧
      (s.pq.push t).elems ~ t :: s.pq.elems) ∧
    (∃ i shard, q.queues[i]? = some shard ∧ shard.cas_lock = false ∧
      q2 = { q with queues := q.queues.set i ⟨shard.pq.push u, false⟩ }) ∧
    q2.into_vec ~ u :: q.into_vec := by
  refine ⟨?_, ?_, push_eq_some hp, (push_some_spec hp).1⟩
  · intro h
    simp [Queue.try_push, h]
  · intro h
    exact ⟨by simp [Queue.try_push, h], List.perm_orderedInsert _ _ _⟩

/-- Witness for C5: a held shard rejects 7 and hands it back; a push of 3 into
a fresh one-shard queue lands exactly one copy in the single shard. -/
theorem C5_witness :
    ((⟨[⟨⟨[], 0⟩, false⟩], ⟨0, 1⟩⟩ : MilkPQ Nat).push 3 [0] =
      some ⟨[⟨⟨[3], 1⟩, false⟩], ⟨0, 1⟩⟩) ∧
    (((⟨⟨[9], 1⟩, true⟩ : Queue Nat).cas_lock = true →
      (⟨⟨[9], 1⟩, true⟩ : Queue Nat).try_push 7 =
        (Except.error 7, ⟨⟨[9], 1⟩, true⟩)) ∧
    ((⟨⟨[9], 1⟩, true⟩ : Queue Nat).cas_lock = false →
      (⟨⟨[9], 1⟩, true⟩ : Queue Nat).try_push 7 =
        (Except.ok (), ⟨(⟨⟨[9], 1⟩, true⟩ : Queue Nat).pq.push 7, false⟩) ∧
      ((⟨⟨[9], 1⟩, true⟩ : Queue Nat).pq.push 7).elems ~
        7 :: (⟨⟨[9], 1⟩, true⟩ : Queue Nat).pq.elems) ∧
    (∃ i shard, (⟨[⟨⟨[], 0⟩, false⟩], ⟨0, 1⟩⟩ :
        MilkPQ Nat).queues[i]? = some shard ∧ shard.cas_lock = false ∧
      (⟨[⟨⟨[3], 1⟩, false⟩], ⟨0, 1⟩⟩ : MilkPQ Nat) =
        ⟨(⟨[⟨⟨[], 0⟩, false⟩], ⟨0, 1⟩⟩ :
          MilkPQ Nat).queues.set i ⟨shard.pq.push 3, false⟩, ⟨0, 1⟩⟩) ∧
    (⟨[⟨⟨[3], 1⟩, false⟩], ⟨0, 1⟩⟩ : MilkPQ Nat).into_vec ~
      3 :: (⟨[⟨⟨[], 0⟩, false⟩], ⟨0, 1⟩⟩ : MilkPQ Nat).into_vec) :=
  ⟨by decide,
    C5_try_push_once ⟨⟨[9], 1⟩, true⟩ 7 ⟨[⟨⟨[], 0⟩, false⟩], ⟨0, 1⟩⟩
      ⟨[⟨⟨[3], 1⟩, false⟩], ⟨0, 1⟩⟩ 3 [0] (by decide)⟩

omit [LinearOrder α] in
/-- The shard loop of `drain`: the flat result is the concatenation of all
shards' contents; each shard is left with an empty heap of the same capacity
(and an untouched flag, since `take` bypasses the lock). -/
theorem drain_go_spec (qs : List (Queue α)) :
    (drain_go qs).1 = qs.flatMap (fun s => s.pq.elems) ∧
    (drain_go qs).2 = qs.map fun s => ⟨⟨[], s.pq.capacity⟩, s.cas_lock⟩ := by
  induction qs with
  | nil => exact ⟨rfl, rfl⟩
  | cons s rest ih =>
    refine ⟨?_, ?_⟩
    · show s.pq.elems ++ (drain_go rest).1 = _
      rw [ih.1, List.flatMap_cons]
    · show (⟨⟨[], s.pq.capacity⟩, s.cas_lock⟩ : Queue α) :: (drain_go rest).2 = _
      rw [ih.2, List.map_cons]

omit [LinearOrder α] in
/-- C6: `drain` returns a flat sequence equal to the concatenation of all
shards' contents (hence the same multiset); afterwards every shard is empty
while keeping its previous capacity (`take` swaps in a fresh empty heap of the
same capacity); with four shards, pushing [1, 2, 3, 4] then draining yields a
sequence whose ascending sorted form is [1, 2, 3, 4], leaving the queue empty. -/
theorem C6_drain (q : MilkPQ α) :
    (q.drain).1 = q.into_vec ∧
    (q.drain).2.queues = (q.queues.map fun s => ⟨⟨[], s.pq.capacity⟩, s.cas_lock⟩) ∧
    (q.drain).2.into_vec = [] ∧
    ((MilkPQ.with_queues 4 : Option (MilkPQ Nat)).bind (fun q0 =>
      (q0.extend_ref [(1, [0]), (2, [1]), (3, [2]), (4, [3])]).map fun q1 =>
        (List.insertionSort (· ≤ ·) (q1.drain).1, (q1.drain).2.into_vec)) =
      some ([1, 2, 3, 4], [])) := by
  refine ⟨(drain_go_spec q.queues).1, (drain_go_spec q.queues).2, ?_, by decide⟩
  show ((drain_go q.queues).2.flatMap fun s => s.pq.elems) = []
  rw [(drain_go_spec q.queues).2, List.flatMap_eq_nil_iff]
  intro l hl
  simp only [List.mem_map] at hl
  obtain ⟨s, -, rfl⟩ := hl
  rfl

/-- Witness for C6 (the theorem has no hypotheses; this instantiates it at a
concrete queue holding [9] in its only shard, with capacity 2 and a held flag). -/
theorem C6_witness :
    ((⟨[⟨⟨[9], 2⟩, true⟩], ⟨0, 1⟩⟩ : MilkPQ Nat).drain).1 =
      (⟨[⟨⟨[9], 2⟩, true⟩], ⟨0, 1⟩⟩ : MilkPQ Nat).into_vec ∧
    ((⟨[⟨⟨[9], 2⟩, true⟩], ⟨0, 1⟩⟩ : MilkPQ Nat).drain).2.queues =
      ((⟨[⟨⟨[9], 2⟩, true⟩], ⟨0, 1⟩⟩ : MilkPQ Nat).queues.map fun s =>
        ⟨⟨[], s.pq.capacity⟩, s.cas_lock⟩) ∧
    ((⟨[⟨⟨[9], 2⟩, true⟩], ⟨0, 1⟩⟩ : MilkPQ Nat).drain).2.into_vec = [] ∧
    ((MilkPQ.with_queues 4 : Option (MilkPQ Nat)).bind (fun q0 =>
      (q0.extend_ref [(1, [0]), (2, [1]), (3, [2]), (4, [3])]).map fun q1 =>
        (List.insertionSort (· ≤ ·) (q1.drain).1, (q1.drain).2.into_vec)) =
      some ([1, 2, 3, 4], [])) :=
  C6_drain ⟨[⟨⟨[9], 2⟩, true⟩], ⟨0, 1⟩⟩

/-- C7: building from an iterable equals `extend_ref` of the iterable on the
freshly constructed empty queue (the push loops are the same); the resulting
queues hold exactly the multiset of yielded elements (pushed in order); and the
from-iterable constructor applies the iterable's lower size bound as the
capacity of every shard uniformly, not divided by the shard count. -/
theorem C7_from_iter_extend_ref (ncpu : Nat) (ts : List (α × List Nat)) :
    (from_iter ncpu ts =
      (with_capacity ncpu ts.length).bind fun q0 => q0.extend_ref ts) ∧
    (∀ q0 : MilkPQ α, with_capacity ncpu ts.length = some q0 →
      ∀ s ∈ q0.queues, s.pq.capacity = ts.length) ∧
    (∀ (cap limit : Nat) (q0 qE : MilkPQ α),
      with_capacity_and_queues cap limit = some q0 → q0.extend_ref ts = some qE →
      qE.into_vec ~ ts.map Prod.fst) ∧
    (∀ qF : MilkPQ α, from_iter ncpu ts = some qF →
      qF.into_vec ~ ts.map Prod.fst) := by
  have hext : ∀ (cap limit : Nat) (q0 qE : MilkPQ α),
      with_capacity_and_queues cap limit = some q0 → q0.extend_ref ts = some qE →
      qE.into_vec ~ ts.map Prod.fst := by
    intro cap limit q0 qE h0 h1
    obtain ⟨-, hqs, -⟩ := with_capacity_and_queues_eq_some h0
    have hempty : q0.into_vec = [] := by
      rw [into_vec_eq_nil_iff]
      intro s hs; rw [hqs] at hs; rw [List.eq_of_mem_replicate hs]
    obtain ⟨hperm, -, -, -, -⟩ := extend_ref_some_spec h1
    rw [hempty, List.append_nil] at hperm
    exact hperm
  refine ⟨?_, ?_, hext, ?_⟩
  · rw [from_iter]
    cases hwc : (with_capacity ncpu ts.length : Option (MilkPQ α)) with
    | none => rfl
    | some q0 =>
      rw [Option.some_bind]
      exact from_iter_go_eq_extend_ref q0 ts
  · intro q0 h0 s hs
    obtain ⟨-, hqs, -⟩ := with_capacity_and_queues_eq_some h0
    rw [hqs] at hs
    rw [List.eq_of_mem_replicate hs]
    rfl
  · intro qF hF
    rw [from_iter] at hF
    cases hwc : (with_capacity ncpu ts.length : Option (MilkPQ α)) with
    | none => rw [hwc] at hF; cases hF
    | some q0 =>
      rw [hwc] at hF
      have hF2 : q0.extend_ref ts = some qF := by
        rw [← from_iter_go_eq_extend_ref]
        exact hF
      exact hext (ts.length) (ncpu * 4) q0 qF hwc hF2

/-- Witness for C7 (the theorem has no hypotheses; this instantiates it at
`ncpu = 1` and the single-element iterable [(7, [0])]). -/
theorem C7_witness :
    (from_iter 1 [((7 : Nat), [0])] =
      (with_capacity 1 [((7 : Nat), [0])].length).bind fun q0 =>
        q0.extend_ref [((7 : Nat), [0])]) ∧
    (∀ q0 : MilkPQ Nat, with_capacity 1 [((7 : Nat), [0])].length = some q0 →
      ∀ s ∈ q0.queues, s.pq.capacity = [((7 : Nat), [0])].length) ∧
    (∀ (cap limit : Nat) (q0 qE : MilkPQ Nat),
      with_capacity_and_queues cap limit = some q0 →
      q0.extend_ref [((7 : Nat), [0])] = some qE →
      qE.into_vec ~ [((7 : Nat), [0])].map Prod.fst) ∧
    (∀ qF : MilkPQ Nat, from_iter 1 [((7 : Nat), [0])] = some qF →
      qF.into_vec ~ [((7 : Nat), [0])].map Prod.fst) :=
  C7_from_iter_extend_ref 1 [((7 : Nat), [0])]

omit [LinearOrder α] in
/-- Characterization of a successful `pop`: some sampled shard had a free
flag; the returned option is that shard's heap-pop result and only that shard
changed. -/
theorem pop_eq_some {q : MilkPQ α} {res : Option α × MilkPQ α} {samples : List Nat}
    (h : q.pop samples = some res) :
    ∃ i shard, q.queues[i]? = some shard ∧ shard.cas_lock = false ∧
      res = ((shard.pq.pop).1,
        { q with queues := q.queues.set i ⟨(shard.pq.pop).2, false⟩ }) := by
  induction samples with
  | nil => simp [pop] at h
  | cons i is ih =>
    rw [pop] at h
    cases hq : q.queues[i]? with
    | none => rw [hq] at h; cases h
    | some shard =>
      rw [hq] at h
      by_cases hl : shard.cas_lock
      · simp only [Queue.try_pop, if_pos hl] at h
        exact ih h
      · simp only [Queue.try_pop, if_neg hl, Option.some.injEq] at h
        exact ⟨i, shard, hq, Bool.eq_false_iff.mpr hl ▸ rfl, h.symm⟩

omit [LinearOrder α] in
/-- Replacing one shard by a free-flagged shard preserves quiescence. -/
theorem quiescent_set {qs : List (Queue α)} (h : ∀ s ∈ qs, s.cas_lock = false)
    (i : Nat) {b : Queue α} (hb : b.cas_lock = false) :
    ∀ s ∈ qs.set i b, s.cas_lock = false := by
  intro s hs
  rcases List.mem_or_eq_of_mem_set hs with hmem | rfl
  · exact h s hmem
  · exact hb

omit [LinearOrder α] in
/-- A successful `pop` preserves quiescence. -/
theorem pop_some_quiescent {q q2 : MilkPQ α} {r : Option α} {samples : List Nat}
    (hq : q.Quiescent) (h : q.pop samples = some (r, q2)) : q2.Quiescent := by
  obtain ⟨i, shard, -, -, hres⟩ := pop_eq_some h
  rw [Prod.mk.injEq] at hres
  obtain ⟨-, rfl⟩ := hres
  exact quiescent_set hq i rfl

omit [LinearOrder α] in
/-- A successful `strong_pop` preserves quiescence. -/
theorem strong_pop_some_quiescent {q q2 : MilkPQ α} {r : Option α}
    (hq : q.Quiescent) (h : q.strong_pop = some (r, q2)) : q2.Quiescent := by
  obtain ⟨r2, q3, hsp, hq3, -, -, -, -⟩ := strong_pop_spec q hq
  rw [h] at hsp
  have h2 : q2 = q3 := congrArg Prod.snd (Option.some.inj hsp)
  rw [h2]
  exact hq3

omit [LinearOrder α] in
/-- A successful `clear` preserves quiescence (all flags end free). -/
theorem clear_some_quiescent {q q2 : MilkPQ α}
    (hq : q.Quiescent) (h : q.clear = some q2) : q2.Quiescent := by
  have hgo := clear_go_spec q.queues hq
  rw [clear, hgo, Option.map_some', Option.some.injEq] at h
  rw [← h]
  intro s hs
  simp only [List.mem_map] at hs
  obtain ⟨s0, -, rfl⟩ := hs
  rfl

omit [LinearOrder α] in
/-- C8: `clear` invokes a blocking per-shard clear; on a quiescent queue it
empties every shard (keeping each capacity, flags ending free), and a
subsequent `strong_pop` returns `none`. -/
theorem C8_clear_then_strong_pop (q : MilkPQ α) (hq : q.Quiescent) :
    ∃ q2, q.clear = some q2 ∧
      q2.queues = (q.queues.map fun s => ⟨⟨[], s.pq.cap⟩, false⟩) ∧
      q2.into_vec = [] ∧
      q2.strong_pop = some (none, q2) := by
  have hgo := clear_go_spec q.queues hq
  refine ⟨⟨q.queues.map fun s => ⟨⟨[], s.pq.cap⟩, false⟩, q.dist⟩, ?_, rfl, ?_, ?_⟩
  · show (clear_go q.queues).map _ = _
    rw [hgo, Option.map_some']
  · rw [into_vec_eq_nil_iff]
    intro s hs
    simp only [List.mem_map] at hs
    obtain ⟨s0, -, rfl⟩ := hs
    rfl
  · have hq2 : (⟨q.queues.map fun s => ⟨⟨[], s.pq.cap⟩, false⟩, q.dist⟩ :
        MilkPQ α).Quiescent := by
      intro s hs
      simp only [List.mem_map] at hs
      obtain ⟨s0, -, rfl⟩ := hs
      rfl
    obtain ⟨r, q3, hsp, -, -, hiff, hnone, -⟩ := strong_pop_spec _ hq2
    have hr : r = none := by
      refine hiff.2 ?_
      intro s hs
      simp only [List.mem_map] at hs
      obtain ⟨s0, -, rfl⟩ := hs
      rfl
    subst hr
    rw [hsp, hnone rfl]

/-- Witness for C8: a quiescent one-shard queue holding [4]. -/
theorem C8_witness :
    (⟨[⟨⟨[4], 1⟩, false⟩], ⟨0, 1⟩⟩ : MilkPQ Nat).Quiescent ∧
    (∃ q2, (⟨[⟨⟨[4], 1⟩, false⟩], ⟨0, 1⟩⟩ : MilkPQ Nat).clear = some q2 ∧
      q2.queues = ((⟨[⟨⟨[4], 1⟩, false⟩], ⟨0, 1⟩⟩ : MilkPQ Nat).queues.map fun s =>
        ⟨⟨[], s.pq.cap⟩, false⟩) ∧
      q2.into_vec = [] ∧
      q2.strong_pop = some (none, q2)) :=
  ⟨by decide, C8_clear_then_strong_pop ⟨[⟨⟨[4], 1⟩, false⟩], ⟨0, 1⟩⟩ (by decide)⟩

/-- C9: every shard lock is free at rest — a newly constructed shard starts
free; `try_push` and `try_pop` on a free shard release before returning;
`clear`, `clone` and the debug formatter (blocking on a free shard) release
before returning; a cloned shard has a fresh free flag; and all queue-level
operations (`push`, `pop`, `strong_pop`, `clear`) preserve all-flags-free
quiescence. -/
theorem C9_lock_free_at_rest (pq0 : BinaryHeap α) (s : Queue α) (t : α)
    (hfree : s.cas_lock = false) :
    (Queue.new pq0).cas_lock = false ∧
    ((s.try_push t).2).cas_lock = false ∧
    ((s.try_pop).2).cas_lock = false ∧
    (∃ s2, s.clear = some s2 ∧ s2.cas_lock = false) ∧
    (∃ c s2, s.clone = some (c, s2) ∧ c.cas_lock = false ∧ s2.cas_lock = false) ∧
    (∃ l s2, s.fmt = some (l, s2) ∧ s2.cas_lock = false) ∧
    (∀ (q q2 : MilkPQ α) (u : α) (samples : List Nat),
      q.Quiescent → q.push u samples = some q2 → q2.Quiescent) ∧
    (∀ (q q2 : MilkPQ α) (r : Option α) (samples : List Nat),
      q.Quiescent → q.pop samples = some (r, q2) → q2.Quiescent) ∧
    (∀ (q q2 : MilkPQ α) (r : Option α),
      q.Quiescent → q.strong_pop = some (r, q2) → q2.Quiescent) ∧
    (∀ q q2 : MilkPQ α, q.Quiescent → q.clear = some q2 → q2.Quiescent) := by
  refine ⟨rfl, ?_, ?_, ?_, ?_, ?_, ?_, ?_, ?_, ?_⟩
  · simp [Queue.try_push, hfree]
  · simp [Queue.try_pop, hfree]
  · exact ⟨⟨s.pq.clear, false⟩, by simp [Queue.clear, hfree], rfl⟩
  · exact ⟨⟨s.pq, false⟩, ⟨s.pq, false⟩, by simp [Queue.clone, hfree], rfl, rfl⟩
  · exact ⟨s.pq.elems, ⟨s.pq, false⟩, by simp [Queue.fmt, hfree], rfl⟩
  · intro q q2 u samples hq hp
    exact (push_some_spec hp).2.1 hq
  · intro q q2 r samples hq hp
    exact pop_some_quiescent hq hp
  · intro q q2 r hq hp
    exact strong_pop_some_quiescent hq hp
  · intro q q2 hq hp
    exact clear_some_quiescent hq hp

/-- Witness for C9: the shard ⟨[2], free⟩ and element 5. -/
theorem C9_witness :
    ((⟨⟨[2], 1⟩, false⟩ : Queue Nat).cas_lock = false) ∧
    ((Queue.new (⟨[3], 1⟩ : BinaryHeap Nat)).cas_lock = false ∧
    (((⟨⟨[2], 1⟩, false⟩ : Queue Nat).try_push 5).2).cas_lock = false ∧
    (((⟨⟨[2], 1⟩, false⟩ : Queue Nat).try_pop).2).cas_lock = false ∧
    (∃ s2, (⟨⟨[2], 1⟩, false⟩ : Queue Nat).clear = some s2 ∧
      s2.cas_lock = false) ∧
    (∃ c s2, (⟨⟨[2], 1⟩, false⟩ : Queue Nat).clone = some (c, s2) ∧
      c.cas_lock = false ∧ s2.cas_lock = false) ∧
    (∃ l s2, (⟨⟨[2], 1⟩, false⟩ : Queue Nat).fmt = some (l, s2) ∧
      s2.cas_lock = false) ∧
    (∀ (q q2 : MilkPQ Nat) (u : Nat) (samples : List Nat),
      q.Quiescent → q.push u samples = some q2 → q2.Quiescent) ∧
    (∀ (q q2 : MilkPQ Nat) (r : Option Nat) (samples : List Nat),
      q.Quiescent → q.pop samples = some (r, q2) → q2.Quiescent) ∧
    (∀ (q q2 : MilkPQ Nat) (r : Option Nat),
      q.Quiescent → q.strong_pop = some (r, q2) → q2.Quiescent) ∧
    (∀ q q2 : MilkPQ Nat, q.Quiescent → q.clear = some q2 → q2.Quiescent)) :=
  ⟨by decide, C9_lock_free_at_rest ⟨[3], 1⟩ ⟨⟨[2], 1⟩, false⟩ 5 (by decide)⟩

omit [LinearOrder α] in
/-- C10: constructing with zero shards fails by panic — the uniform sampler
over the empty range [0, 0) cannot be built — for `with_queues 0` and
`with_capacity_and_queues C 0` for every C; every positive shard count
succeeds, so no constructor checks N ≥ 1 apart from this panic. -/
theorem C10_zero_queues_panics :
    (MilkPQ.with_queues 0 : Option (MilkPQ α)) = none ∧
    (∀ cap : Nat, (MilkPQ.with_capacity_and_queues cap 0 : Option (MilkPQ α)) = none) ∧
    (∀ limit : Nat, 0 < limit → (MilkPQ.with_queues limit : Option (MilkPQ α)).isSome) ∧
    (∀ cap limit : Nat, 0 < limit →
      (MilkPQ.with_capacity_and_queues cap limit : Option (MilkPQ α)).isSome) := by
  refine ⟨rfl, fun cap => rfl, ?_, ?_⟩
  · intro limit hl
    simp [with_queues, Uniform.new, hl]
  · intro cap limit hl
    simp [with_capacity_and_queues, Uniform.new, hl]

/-- Witness for C10: instance at the element type Nat, shard counts 0 and 3. -/
theorem C10_witness :
    ((MilkPQ.with_queues 0 : Option (MilkPQ Nat)) = none ∧
    (∀ cap : Nat, (MilkPQ.with_capacity_and_queues cap 0 : Option (MilkPQ Nat)) = none) ∧
    (∀ limit : Nat, 0 < limit →
      (MilkPQ.with_queues limit : Option (MilkPQ Nat)).isSome) ∧
    (∀ cap limit : Nat, 0 < limit →
      (MilkPQ.with_capacity_and_queues cap limit : Option (MilkPQ Nat)).isSome)) ∧
    (0 < 3 ∧ (MilkPQ.with_queues 3 : Option (MilkPQ Nat)).isSome) :=
  ⟨C10_zero_queues_panics, by decide,
    (C10_zero_queues_panics (α := Nat)).2.2.1 3 (by decide)⟩

end MilkPQ
